import Mathlib

/-!
Verification of the update-planning and source-synchronization core of `vx`
(a Void Linux package-manager front end written in Rust).

Shallow embedding conventions:
* Rust `&str` / `String` values are modelled as `List Char` (`Str` below).
  Rust string iteration is by `char`, and every comparison the code performs
  is per-`char`, so this is faithful.
* Whitespace classification uses `Char.isWhitespace` (ASCII space, tab, CR,
  LF); every separator the program actually meets is in this set.
* Fallible Rust functions returning `Result<T, String>` become
  `Except Str T`; a Rust panic (an out-of-bounds slice) is modelled as
  `Option.none` at the function that can panic, propagated outward.
* External effects (filesystem, child processes, clock) are passed in as
  explicit state or oracle parameters; the Lean definitions mirror the
  Rust control flow over those parameters line by line.
-/

abbrev Str := List Char

/-! ## Basic string helpers mirroring Rust `str` methods -/

/-- Rust `str::starts_with` on char lists: `isPfx p s` is true when `p` is a
prefix of `s`. -/
def isPfx : Str → Str → Bool
  | [], _ => true
  | _ :: _, [] => false
  | a :: as, b :: bs => if a = b then isPfx as bs else false

/-- Rust `str::ends_with` on char lists. -/
def isSfx (p s : Str) : Bool := isPfx p.reverse s.reverse

/-- Rust `str::contains` (substring search) on char lists. -/
def containsSub : Str → Str → Bool
  | s, pat =>
    if isPfx pat s then true
    else
      match s with
      | [] => false
      | _ :: rest => containsSub rest pat

/-- Rust `str::trim_start` (left trim) restricted to ASCII whitespace. -/
def trimStart (s : Str) : Str := s.dropWhile Char.isWhitespace

/-- Rust `str::trim`: drop whitespace from both ends. -/
def trim (s : Str) : Str :=
  ((s.dropWhile Char.isWhitespace).reverse.dropWhile Char.isWhitespace).reverse

/-- Strip one trailing carriage return, as Rust `str::lines` does for the
piece that precedes each line feed. -/
def stripCR (s : Str) : Str :=
  if isSfx [Char.ofNat 13] s then s.dropLast else s

/-- Worker for `linesOf`: split at every `\n`, stripping a `\r` directly
before each `\n`; `cur` holds the characters of the current piece in
reverse.  Yields one piece per line ending plus a final (possibly empty)
unterminated piece. -/
def splitNL : Str → Str → List Str
  | cur, [] => [cur.reverse]
  | cur, c :: rest =>
    if c = '\n' then stripCR cur.reverse :: splitNL [] rest
    else splitNL (c :: cur) rest

/-- Rust `str::lines`: split at `\n`, strip a `\r` directly before each
`\n`, and do not yield a trailing empty line (the final line ending is
optional). -/
def linesOf (s : Str) : List Str :=
  let ps := splitNL [] s
  if ps.getLast? = some [] then ps.dropLast else ps

/-- Worker for `wordsOf`: `cur` holds the characters of the current word
in reverse. -/
def wordsGo : Str → Str → List Str
  | cur, [] => if cur.isEmpty then [] else [cur.reverse]
  | cur, c :: rest =>
    if c.isWhitespace then
      if cur.isEmpty then wordsGo [] rest else cur.reverse :: wordsGo [] rest
    else wordsGo (c :: cur) rest

/-- Rust `str::split_whitespace`: maximal runs of non-whitespace. -/
def wordsOf (s : Str) : List Str := wordsGo [] s

/-- Rust `str::strip_prefix`: `dropPfx p s` is `some` of the remainder when
`p` is a prefix of `s`. -/
def dropPfx : Str → Str → Option Str
  | [], s => some s
  | _ :: _, [] => none
  | a :: as, b :: bs => if a = b then dropPfx as bs else none

/-! ## Freshness cache (`src/cache.rs`)

The on-disk cache is modelled as a map from key to the parsed content of
its stamp file: `none` means the file is missing or its content does not
parse as an integer (`is_fresh` treats both identically).  The system
clock is an explicit `now` argument (`now_secs` in the source), and the
`VX_FRESH` override is an explicit flag. -/

structure CacheState where
  stamps : Str → Option Nat
  forceFresh : Bool

/-- `cache::is_fresh` (src/cache.rs lines 73-91).  `u64::saturating_sub`
is exactly `Nat` subtraction. -/
def is_fresh (st : CacheState) (now : Nat) (key : Str) (ttl_secs : Nat) : Bool :=
  if st.forceFresh then false
  else
    match st.stamps key with
    | none => false
    | some last => now - last ≤ ttl_secs

/-- `cache::mark` (src/cache.rs lines 94-102): write the current epoch
seconds to the key's stamp file. -/
def mark (st : CacheState) (now : Nat) (key : Str) : CacheState :=
  { st with stamps := fun k => if k = key then some now else st.stamps k }

/-! ## Source update planner (`src/src/core/source/plan.rs`)

`plan_src_updates_with_resolved` (lines 50-136) resolves a `(version,
revision)` pair per requested package (upstream template in remote mode,
local template otherwise; parse failures warn and skip) and emits an
update candidate unless the package is already installed at exactly the
candidate pkgver and `force` is off.  The per-package resolution step --
git reads, file reads and template parsing, each of whose failures hits a
`continue` -- is the oracle `resolve` below: `none` is any skipped
package, `some (ver, rev)` a successfully resolved pair.  The one-shot
installed map is the oracle `installed_map`. -/

structure SrcUpdate where
  name : Str
  installed : Option Str
  candidate : Str
deriving DecidableEq, Repr

/-- The candidate pkgver `format!("{name}-{ver}_{rev}")` (plan.rs line 117). -/
def srcCandidate (name ver rev : Str) : Str :=
  name ++ ['-'] ++ ver ++ ['_'] ++ rev

/-- The planning loop of `plan_src_updates_with_resolved` (plan.rs lines
63-135). -/
def plan_src_updates_with_resolved
    (resolve : Str → Option (Str × Str)) (installed_map : Str → Option Str)
    (pkgs : List Str) (force : Bool) : List SrcUpdate :=
  match pkgs with
  | [] => []
  | name :: rest =>
    match resolve name with
    | none => plan_src_updates_with_resolved resolve installed_map rest force
    | some (ver, rev) =>
      let candidate := srcCandidate name ver rev
      let installed := installed_map name
      if force = false ∧ installed = some candidate then
        plan_src_updates_with_resolved resolve installed_map rest force
      else
        ⟨name, installed, candidate⟩ ::
          plan_src_updates_with_resolved resolve installed_map rest force

/-! ## Template version parser (`src/src/core/source/plan.rs` lines 201-232)

`unquote` performs the Rust slice `s[1..s.len()-1]` when the trimmed
value both starts and ends with the same quote character.  For a value
that is a single quote character that slice is `s[1..0]`, which panics in
Rust; the panic is modelled as `none`. -/

/-- A double quote and a single quote, written by code point. -/
def dquote : Char := Char.ofNat 34

def squote : Char := Char.ofNat 39

/-- `unquote` (plan.rs lines 225-232); `none` models the panic of the
slice `s[1..s.len()-1]` when `s.len() < 2`. -/
def unquote (s0 : Str) : Option Str :=
  let s := trim s0
  if (isPfx [dquote] s && isSfx [dquote] s) ||
      (isPfx [squote] s && isSfx [squote] s) then
    if 2 ≤ s.length then some (s.drop 1).dropLast else none
  else some s

/-- The body of the scanning loop of `parse_template_version_revision_str`
(plan.rs lines 210-214): recognize a `version=` or `revision=` assignment
on an already-trimmed, non-comment, non-empty line and update the two
options; `none` models a panic escaping from `unquote`. -/
def templateLineUpdate (line : Str) (v r : Option Str) :
    Option (Option Str × Option Str) :=
  match dropPfx "version=".toList line with
  | some val => (unquote (trim val)).map (fun uq => (some uq, r))
  | none =>
    match dropPfx "revision=".toList line with
    | some val => (unquote (trim val)).map (fun uq => (v, some uq))
    | none => some (v, r)

/-- The line scan of `parse_template_version_revision_str` (plan.rs lines
205-218): skip comments and blank lines, apply `templateLineUpdate`, and
stop as soon as both `version` and `revision` are known. -/
def scanTemplateLines :
    List Str → Option Str → Option Str → Option (Option Str × Option Str)
  | [], v, r => some (v, r)
  | l :: ls, v, r =>
    let line := trim l
    if isPfx ['#'] line || line.isEmpty then scanTemplateLines ls v r
    else
      match templateLineUpdate line v r with
      | none => none
      | some (v2, r2) =>
        if v2.isSome && r2.isSome then some (v2, r2)
        else scanTemplateLines ls v2 r2

/-- `parse_template_version_revision_str` (plan.rs lines 201-223); the
outer `none` models a panic, `Except.error` the `Err` results. -/
def parse_template_version_revision_str (text : Str) :
    Option (Except Str (Str × Str)) :=
  match scanTemplateLines (linesOf text) none none with
  | none => none
  | some (v, r) =>
    match v with
    | none => some (Except.error "template missing version=".toList)
    | some ver => some (Except.ok (ver, r.getD "1".toList))

/-! ## Git sync (`src/src/core/source/git.rs` lines 41-118)

`sync_voidpkgs` touches the filesystem, the freshness cache and the `git`
child processes; those effects are the environment below.  The returned
`Bool` on success records whether the cache was marked (`true` only on
the fetch path). -/

structure GitSyncEnv where
  gitDirExists : Bool
  cacheFresh : Bool
  hasUpstream : Bool
  fetchSpawnOk : Bool
  fetchOk : Bool
  fetchErrStream : Str
  spawnErr : Str

/-- The error for a repository without `.git` (git.rs lines 46-51). -/
def notGitRepoMsg (path : Str) : Str :=
  "void-packages at ".toList ++ path ++
    " is not a git repo (missing .git); cannot sync".toList

/-- The remediation command quoted in the missing-remote error. -/
def remediationCmd : Str :=
  "git remote add upstream https://github.com/void-linux/void-packages.git".toList

/-- The error for a missing `upstream` remote (git.rs lines 74-82); Rust
backslash-newline continuations strip the newline and following
whitespace. -/
def noUpstreamMsg (path : Str) : Str :=
  ("void-packages repo has no 'upstream' remote.\n" ++
    "vx expects 'upstream' to point at the official Void Linux repository.\n\n" ++
    "To fix this, run:\ncd ").toList ++ path ++
    ('\n' :: remediationCmd ++ "\n\nThen re-run your vx command.".toList)

/-- The error for a failed fetch (git.rs lines 113-116): it mentions only
the repository path; the fetch runs with `.status()` and inherited or
null output streams, so no error stream is captured. -/
def fetchFailMsg (path : Str) : Str :=
  "git fetch upstream master failed in ".toList ++ path

/-- `sync_voidpkgs` (git.rs lines 41-118). -/
def sync_voidpkgs (env : GitSyncEnv) (voidpkgs : Str) : Except Str Bool :=
  if env.gitDirExists = false then Except.error (notGitRepoMsg voidpkgs)
  else if env.cacheFresh then Except.ok false
  else if env.hasUpstream = false then Except.error (noUpstreamMsg voidpkgs)
  else if env.fetchSpawnOk = false then
    Except.error ("failed to run git fetch: ".toList ++ env.spawnErr)
  else if env.fetchOk then Except.ok true
  else Except.error (fetchFailMsg voidpkgs)

/-! ## Overlay decision (`src/src/core/source/xbps_src.rs` lines 257-312)

Per package, `overlay_local_srcpkgs` trims the name, skips empty names
and missing local directories, and otherwise overlays iff the
`.vx-overlay` marker file exists or the upstream reference lacks the
template.  The filesystem and git facts are the environment below. -/

structure OverlayEnv where
  localIsDir : Bool
  markerIsFile : Bool
  upstreamHas : Bool

/-- The per-package overlay decision of `overlay_local_srcpkgs`
(xbps_src.rs lines 263-286): `true` iff the local directory is copied
into the worktree. -/
def overlay_decision (pkg : Str) (env : OverlayEnv) : Bool :=
  if (trim pkg).isEmpty then false
  else if env.localIsDir = false then false
  else if env.markerIsFile then true
  else ! env.upstreamHas

/-! ## Local repository resolver (`src/src/core/source/add.rs` lines 232-257) -/

structure RepoDir where
  path : Str
  listing : List Str
deriving DecidableEq

/-- `repo_has_pkg_file` (add.rs lines 243-257): the directory listing
contains a file named `<pkg>-*.xbps`. -/
def repo_has_pkg_file (repo : RepoDir) (pkg : Str) : Bool :=
  repo.listing.any (fun name =>
    isPfx (pkg ++ ['-']) name && isSfx ".xbps".toList name)

/-- `choose_repo_for_pkg` (add.rs lines 232-240): first repository in
discovery order that physically holds an artifact for `pkg`. -/
def choose_repo_for_pkg (repos : List RepoDir) (pkg : Str) : Option RepoDir :=
  match repos with
  | [] => none
  | r :: rest =>
    if repo_has_pkg_file r pkg then some r else choose_repo_for_pkg rest pkg

/-! ## Dry-run output parser (`src/src/core/xbps/parse.rs`)

`parse_xbps_sun_plan` interprets `xbps-install -Sun`/`-un` preview text.
The installed-pkgver lookup closure `F` is the oracle `installed`
(errors from it abort the whole parse, as Rust `?` does). -/

structure SysUpdate where
  name : Str
  fromv : Str
  tov : Str
deriving DecidableEq, Repr

/-- The accepted actions (parse.rs lines 68 and 92). -/
def acceptedActions : List Str :=
  ["update".toList, "install".toList, "reinstall".toList, "downgrade".toList]

/-- The informational chatter prefixes skipped in either mode (parse.rs
lines 36-46). -/
def chatterPfxs : List Str :=
  ["[*]".toList, "=>".toList, "xbps-install:".toList,
   "Size to download:".toList, "Size required on disk:".toList,
   "Space available on disk:".toList, "Do you want to continue?".toList,
   "Aborting!".toList]

def isChatter (line : Str) : Bool := chatterPfxs.any (fun p => isPfx p line)

/-- The table-header test (parse.rs lines 48-52). -/
def isTableHeader (line : Str) : Bool :=
  isPfx "Name".toList line && containsSub line "Action".toList &&
    (containsSub line "Version".toList || containsSub line "Current".toList) &&
    (containsSub line "New".toList || containsSub line "New version".toList)

/-- Rust `str::rsplit_once`: split at the last occurrence of `c`. -/
def rsplitOnce (c : Char) : Str → Option (Str × Str)
  | [] => none
  | x :: xs =>
    match rsplitOnce c xs with
    | some (l, r) => some (x :: l, r)
    | none => if x = c then some ([], xs) else none

/-- `pkgname_from_pkgver` (parse.rs lines 119-126): split at the last
hyphen and require the suffix to begin with an ASCII digit. -/
def pkgname_from_pkgver (pkgver : Str) : Option Str :=
  match rsplitOnce '-' pkgver with
  | none => none
  | some (name, ver) =>
    if (ver.head?.map Char.isDigit).getD false then some name else none

/-- The `<not installed>` sentinel (parse.rs line 103). -/
def notInstalledSentinel : Str := "<not installed>".toList

/-- The line loop of `parse_xbps_sun_plan` (parse.rs lines 24-111), with
the `(in_table, saw_table_row)` state threaded explicitly.  Rows are
accumulated in input order. -/
def parseLines (installed : Str → Except Str (Option Str)) :
    List Str → Bool → Bool → Except Str (List SysUpdate)
  | [], _, _ => Except.ok []
  | raw :: rest, in_table, saw_table_row =>
    let line := trim raw
    if line.isEmpty then
      if in_table && !saw_table_row then
        parseLines installed rest in_table saw_table_row
      else parseLines installed rest false false
    else if isChatter line then parseLines installed rest in_table saw_table_row
    else if isTableHeader line then parseLines installed rest true false
    else if in_table then
      match wordsOf line with
      | name :: action :: oldver :: newver :: _ =>
        if action ∈ acceptedActions then
          match parseLines installed rest true true with
          | Except.error e => Except.error e
          | Except.ok restOut =>
            Except.ok
              (⟨name, name ++ '-' :: oldver, name ++ '-' :: newver⟩ :: restOut)
        else parseLines installed rest in_table saw_table_row
      | _ => parseLines installed rest in_table saw_table_row
    else
      match wordsOf line with
      | pkgver :: action :: _ =>
        if action ∈ acceptedActions then
          match pkgname_from_pkgver pkgver with
          | none => parseLines installed rest in_table saw_table_row
          | some name =>
            match installed name with
            | Except.error e => Except.error e
            | Except.ok ov =>
              match parseLines installed rest in_table saw_table_row with
              | Except.error e => Except.error e
              | Except.ok restOut =>
                Except.ok (⟨name, ov.getD notInstalledSentinel, pkgver⟩ :: restOut)
        else parseLines installed rest in_table saw_table_row
      | _ => parseLines installed rest in_table saw_table_row

/-- Lexicographic order on char lists, the order `String::cmp` induces on
the `name` field (UTF-8 byte order agrees with code-point order). -/
def strLe : Str → Str → Bool
  | [], _ => true
  | _ :: _, [] => false
  | a :: as, b :: bs => if a < b then true else if a = b then strLe as bs else false

/-- Stable insertion into a name-sorted list: the inserted element goes
before every element it compares `≤` to, hence before equal names it
preceded in the input. -/
def insertByName (u : SysUpdate) : List SysUpdate → List SysUpdate
  | [] => [u]
  | v :: vs => if strLe u.name v.name then u :: v :: vs else v :: insertByName u vs

/-- A stable sort by `name`.  Rust `sort_by(|a, b| a.name.cmp(&b.name))`
is stable, and all stable sorts under the same key agree, so this
insertion sort is extensionally the sort at parse.rs line 113. -/
def sortByName : List SysUpdate → List SysUpdate
  | [] => []
  | u :: us => insertByName u (sortByName us)

/-- Worker for `dedupByName`: drop each element whose name equals the
most recently kept element's name, exactly `Vec::dedup_by`'s traversal. -/
def dedupGo (prev : SysUpdate) : List SysUpdate → List SysUpdate
  | [] => []
  | v :: vs => if v.name = prev.name then dedupGo prev vs else v :: dedupGo v vs

/-- `out.dedup_by(|a, b| a.name == b.name)` (parse.rs line 114): keeps
the first element of each consecutive run of equal names. -/
def dedupByName : List SysUpdate → List SysUpdate
  | [] => []
  | u :: rest => u :: dedupGo u rest

/-- `parse_xbps_sun_plan` (parse.rs lines 15-117). -/
def parse_xbps_sun_plan (text : Str)
    (installed : Str → Except Str (Option Str)) :
    Except Str (List SysUpdate) :=
  match parseLines installed (linesOf text) false false with
  | Except.error e => Except.error e
  | Except.ok rows => Except.ok (dedupByName (sortByName rows))

/-- The scanner states of `strip_ansi`: ordinary text, just after an
escape character whose peeked successor is not yet consumed, or inside a
CSI sequence (consume up to and including the first ASCII alphabetic
character). -/
inductive AnsiMode where
  | normal
  | sawEsc
  | inCsi

/-- Worker for `strip_ansi`, the iterator loop of parse.rs lines 131-145
restated as a one-character automaton: an escape followed by `[` opens a
CSI sequence; an escape followed by anything else is emitted. -/
def stripAnsiGo : AnsiMode → Str → Str
  | .normal, [] => []
  | .sawEsc, [] => [Char.ofNat 27]
  | .inCsi, [] => []
  | .normal, c :: rest =>
    if c = Char.ofNat 27 then stripAnsiGo .sawEsc rest
    else c :: stripAnsiGo .normal rest
  | .sawEsc, c :: rest =>
    if c = '[' then stripAnsiGo .inCsi rest
    else if c = Char.ofNat 27 then Char.ofNat 27 :: stripAnsiGo .sawEsc rest
    else Char.ofNat 27 :: c :: stripAnsiGo .normal rest
  | .inCsi, c :: rest =>
    if c.isAlpha then stripAnsiGo .normal rest else stripAnsiGo .inCsi rest

/-- `strip_ansi` (parse.rs lines 128-146). -/
def strip_ansi (s : Str) : Str := stripAnsiGo .normal s

/-- The whole-text header test of `plan_system_updates_inner` (plan.rs
lines 111-114): plain substring containment, not line-based. -/
def hasXbpsPlanHeaderStrings (t : Str) : Bool :=
  containsSub t "Name".toList && containsSub t "Action".toList &&
    (containsSub t "Version".toList || containsSub t "Current".toList) &&
    (containsSub t "New".toList || containsSub t "New version".toList)

/-- The text-processing tail of `plan_system_updates_inner` (plan.rs
lines 101-122): strip ANSI escapes from the combined output, parse it,
and refuse to report an empty plan when the text still shows the header
strings. -/
def plan_system_updates_from_output (text : Str)
    (installed : Str → Except Str (Option Str)) :
    Except Str (List SysUpdate) :=
  let t := strip_ansi text
  match parse_xbps_sun_plan t installed with
  | Except.error e => Except.error e
  | Except.ok plan =>
    if plan.isEmpty && hasXbpsPlanHeaderStrings t then
      Except.error
        "failed to parse xbps dry-run output (format changed); refusing to report empty plan".toList
    else Except.ok plan

/-- Modelled from the spec (4.4 and 4.6, claim C9): derive the package
name by right-splitting the pkgver at its last hyphen whose suffix
begins with a digit.  This is the spec's wording; the source's
`pkgname_from_pkgver` instead splits at the last hyphen outright and
rejects when that suffix does not begin with a digit. -/
def rsplitLastDigitHyphen : Str → Option (Str × Str)
  | [] => none
  | x :: xs =>
    match rsplitLastDigitHyphen xs with
    | some (l, r) => some (x :: l, r)
    | none =>
      if x = '-' ∧ (xs.head?.map Char.isDigit).getD false = true then
        some ([], xs)
      else none

/-- Modelled from the spec: the name the spec's derivation rule yields. -/
def pkgname_spec_model (s : Str) : Option Str :=
  (rsplitLastDigitHyphen s).map Prod.fst

/-! ### Helper lemmas about the string functions -/

theorem isPfx_iff (p s : Str) : isPfx p s = true ↔ p <+: s := by
  induction p generalizing s with
  | nil => simp [isPfx]
  | cons a as ih =>
    cases s with
    | nil => simp [isPfx]
    | cons b bs =>
      simp only [isPfx, List.cons_prefix_cons]
      by_cases hab : a = b
      · simp [hab, ih]
      · simp [hab]

theorem containsSub_iff (s pat : Str) : containsSub s pat = true ↔ pat <:+: s := by
  induction s with
  | nil =>
    rw [containsSub, List.infix_nil]
    constructor
    · intro h
      by_cases hp : isPfx pat [] = true
      · exact List.prefix_nil.mp ((isPfx_iff pat []).mp hp)
      · rw [if_neg hp] at h
        simp at h
    · intro h
      subst h
      simp [isPfx]
  | cons c rest ih =>
    rw [containsSub]
    by_cases hp : isPfx pat (c :: rest) = true
    · simp only [hp, if_true, true_iff]
      exact ((isPfx_iff pat (c :: rest)).mp hp).isInfix
    · simp only [hp, if_false, Bool.false_eq_true]
      rw [ih, List.infix_cons_iff]
      constructor
      · exact Or.inr
      · rintro (h | h)
        · exact absurd ((isPfx_iff pat (c :: rest)).mpr h) hp
        · exact h

theorem trim_within (s : Str) : trim s <:+: s := by
  have h1 : s.dropWhile Char.isWhitespace <:+ s := List.dropWhile_suffix _
  have h2 : trim s <+: s.dropWhile Char.isWhitespace := by
    rw [trim]
    rw [← List.reverse_suffix]
    simp only [List.reverse_reverse]
    exact List.dropWhile_suffix _
  exact h2.isInfix.trans h1.isInfix

theorem stripCR_leading (s : Str) : stripCR s <+: s := by
  rw [stripCR]
  by_cases h : isSfx [Char.ofNat 13] s = true
  · rw [if_pos h]
    exact List.dropLast_prefix s
  · rw [if_neg h]

theorem splitNL_within (s : Str) :
    ∀ cur l, l ∈ splitNL cur s → l <:+: cur.reverse ++ s := by
  induction s with
  | nil =>
    intro cur l hl
    rw [splitNL] at hl
    rcases List.mem_singleton.mp hl with rfl
    simp
  | cons c rest ih =>
    intro cur l hl
    rw [splitNL] at hl
    by_cases hc : c = '\n'
    · rw [if_pos hc] at hl
      rcases List.mem_cons.mp hl with rfl | hl
      · exact ((stripCR_leading _).trans (List.prefix_append _ _)).isInfix
      · have h2 := ih [] l hl
        simp only [List.reverse_nil, List.nil_append] at h2
        exact h2.trans (show rest <:+ cur.reverse ++ c :: rest from ⟨cur.reverse ++ [c], by simp⟩).isInfix
    · rw [if_neg hc] at hl
      have h2 := ih (c :: cur) l hl
      simpa using h2

theorem linesOf_within (s : Str) : ∀ l ∈ linesOf s, l <:+: s := by
  intro l hl
  rw [linesOf] at hl
  have hmem : l ∈ splitNL [] s := by
    by_cases h : (splitNL [] s).getLast? = some []
    · rw [if_pos h] at hl
      exact (List.dropLast_sublist _).mem hl
    · rw [if_neg h] at hl
      exact hl
  have h2 := splitNL_within s [] l hmem
  simpa using h2

/-- Claim C6: with the force-fresh override unset, a key is fresh
immediately after `mark` for every ttl; it is stale once the elapsed time
since the mark exceeds the ttl; and with the override set `is_fresh` is
false regardless of the stamp store. -/
theorem is_fresh_mark_spec (st : CacheState) (t now : Nat) (key : Str) (ttl : Nat)
    (hoff : st.forceFresh = false) :
    is_fresh (mark st t key) t key ttl = true ∧
    (ttl < now - t → is_fresh (mark st t key) now key ttl = false) ∧
    (∀ st2 : CacheState, st2.forceFresh = true →
      ∀ n k tt, is_fresh st2 n k tt = false) := by
  refine ⟨?_, ?_, ?_⟩
  · simp [is_fresh, mark, hoff]
  · intro hgt
    have hne : ¬ (now - t ≤ ttl) := by omega
    simp [is_fresh, mark, hoff, hne]
  · intro st2 hon n k tt
    simp [is_fresh, hon]

/-- Witness for C6 at concrete values: mark at time 100, ttl 5; fresh at
time 100, stale at time 106. -/
theorem is_fresh_mark_spec_witness :
    is_fresh (mark ⟨fun _ => none, false⟩ 100 ['k']) 100 ['k'] 5 = true ∧
    is_fresh (mark ⟨fun _ => none, false⟩ 100 ['k']) 106 ['k'] 5 = false := by
  have h := is_fresh_mark_spec ⟨fun _ => none, false⟩ 100 106 ['k'] 5 rfl
  exact ⟨h.1, h.2.1 (by norm_num)⟩

theorem plan_src_names_sublist (resolve : Str → Option (Str × Str))
    (im : Str → Option Str) (pkgs : List Str) (force : Bool) :
    ((plan_src_updates_with_resolved resolve im pkgs force).map SrcUpdate.name).Sublist
      pkgs := by
  induction pkgs with
  | nil => simp [plan_src_updates_with_resolved]
  | cons name rest ih =>
    cases hres : resolve name with
    | none =>
      simp only [plan_src_updates_with_resolved, hres]
      exact ih.cons name
    | some vr =>
      obtain ⟨ver, rev⟩ := vr
      simp only [plan_src_updates_with_resolved, hres]
      by_cases hskip :
          force = false ∧ im name = some (srcCandidate name ver rev)
      · rw [if_pos hskip]
        exact ih.cons name
      · rw [if_neg hskip]
        simpa using ih.cons₂ name

theorem plan_src_mem_of_resolved (resolve : Str → Option (Str × Str))
    (im : Str → Option Str) (pkgs : List Str) (force : Bool)
    (name ver rev : Str) (hres : resolve name = some (ver, rev))
    (hmem : name ∈ pkgs)
    (hkeep : ¬ (force = false ∧ im name = some (srcCandidate name ver rev))) :
    (⟨name, im name, srcCandidate name ver rev⟩ : SrcUpdate) ∈
      plan_src_updates_with_resolved resolve im pkgs force := by
  induction pkgs with
  | nil => simp at hmem
  | cons p rest ih =>
    rcases List.mem_cons.mp hmem with rfl | hmem2
    · simp only [plan_src_updates_with_resolved, hres]
      rw [if_neg hkeep]
      exact List.mem_cons_self _ _
    · cases hres2 : resolve p with
      | none =>
        simp only [plan_src_updates_with_resolved, hres2]
        exact ih hmem2
      | some vr =>
        obtain ⟨v2, r2⟩ := vr
        simp only [plan_src_updates_with_resolved, hres2]
        by_cases hskip : force = false ∧ im p = some (srcCandidate p v2 r2)
        · rw [if_pos hskip]
          exact ih hmem2
        · rw [if_neg hskip]
          exact List.mem_cons_of_mem _ (ih hmem2)

theorem plan_src_skip_name (resolve : Str → Option (Str × Str))
    (im : Str → Option Str) (pkgs : List Str)
    (name ver rev : Str) (hres : resolve name = some (ver, rev))
    (hinst : im name = some (srcCandidate name ver rev)) :
    ∀ u ∈ plan_src_updates_with_resolved resolve im pkgs false,
      u.name ≠ name := by
  induction pkgs with
  | nil => intro u hu; simp [plan_src_updates_with_resolved] at hu
  | cons p rest ih =>
    intro u hu
    by_cases hp : p = name
    · subst hp
      simp only [plan_src_updates_with_resolved, hres] at hu
      rw [if_pos ⟨trivial, hinst⟩] at hu
      exact ih u hu
    · cases hres2 : resolve p with
      | none =>
        simp only [plan_src_updates_with_resolved, hres2] at hu
        exact ih u hu
      | some vr =>
        obtain ⟨v2, r2⟩ := vr
        simp only [plan_src_updates_with_resolved, hres2] at hu
        by_cases hskip : im p = some (srcCandidate p v2 r2)
        · rw [if_pos ⟨trivial, hskip⟩] at hu
          exact ih u hu
        · rw [if_neg (fun h => hskip h.2)] at hu
          rcases List.mem_cons.mp hu with rfl | hu2
          · exact hp
          · exact ih u hu2

theorem plan_src_resolved_of_mem (resolve : Str → Option (Str × Str))
    (im : Str → Option Str) (pkgs : List Str) (force : Bool) :
    ∀ u ∈ plan_src_updates_with_resolved resolve im pkgs force,
      ∃ ver rev, resolve u.name = some (ver, rev) ∧
        u.installed = im u.name ∧ u.candidate = srcCandidate u.name ver rev := by
  induction pkgs with
  | nil => intro u hu; simp [plan_src_updates_with_resolved] at hu
  | cons p rest ih =>
    intro u hu
    cases hres : resolve p with
    | none =>
      simp only [plan_src_updates_with_resolved, hres] at hu
      exact ih u hu
    | some vr =>
      obtain ⟨v2, r2⟩ := vr
      simp only [plan_src_updates_with_resolved, hres] at hu
      by_cases hskip : force = false ∧ im p = some (srcCandidate p v2 r2)
      · rw [if_pos hskip] at hu
        exact ih u hu
      · rw [if_neg hskip] at hu
        rcases List.mem_cons.mp hu with rfl | hu2
        · exact ⟨v2, r2, hres, rfl, rfl⟩
        · exact ih u hu2

/-- Claim C4: the source planner emits one candidate per resolved package
except the force-off already-current ones; with force on every resolved
package is included; emitted names preserve the input list's relative
order; and every emitted candidate comes from a resolved package, with
its `installed` field read from the installed index. -/
theorem plan_src_updates_spec (resolve : Str → Option (Str × Str))
    (im : Str → Option Str) (pkgs : List Str) (force : Bool)
    (name ver rev : Str) (hres : resolve name = some (ver, rev))
    (hmem : name ∈ pkgs) :
    ((plan_src_updates_with_resolved resolve im pkgs force).map
        SrcUpdate.name).Sublist pkgs ∧
    (force = true →
      (⟨name, im name, srcCandidate name ver rev⟩ : SrcUpdate) ∈
        plan_src_updates_with_resolved resolve im pkgs force) ∧
    (force = false → im name = some (srcCandidate name ver rev) →
      ∀ u ∈ plan_src_updates_with_resolved resolve im pkgs false,
        u.name ≠ name) ∧
    (¬ (force = false ∧ im name = some (srcCandidate name ver rev)) →
      (⟨name, im name, srcCandidate name ver rev⟩ : SrcUpdate) ∈
        plan_src_updates_with_resolved resolve im pkgs force) ∧
    (∀ u ∈ plan_src_updates_with_resolved resolve im pkgs force,
      ∃ v r, resolve u.name = some (v, r) ∧
        u.installed = im u.name ∧ u.candidate = srcCandidate u.name v r) := by
  refine ⟨plan_src_names_sublist resolve im pkgs force, ?_, ?_, ?_,
    plan_src_resolved_of_mem resolve im pkgs force⟩
  · intro hforce
    refine plan_src_mem_of_resolved resolve im pkgs force name ver rev hres hmem ?_
    rintro ⟨hf, -⟩
    rw [hforce] at hf
    exact Bool.noConfusion hf
  · intro hforce hinst
    exact plan_src_skip_name resolve im pkgs name ver rev hres hinst
  · intro hkeep
    exact plan_src_mem_of_resolved resolve im pkgs force name ver rev hres hmem hkeep

/-- Witness for C4, matching the spec's end-to-end example: index maps
`foo` to `foo-1.0_1`; with the template resolving to version `1.0`
revision `1` and `force = false`, the plan omits `foo` (here shown via
the skip conjunct); with revision `2` the candidate `foo-1.0_2` is
emitted. -/
theorem plan_src_updates_spec_witness :
    (∀ u ∈ plan_src_updates_with_resolved
        (fun _ => some ("1.0".toList, "1".toList))
        (fun _ => some "foo-1.0_1".toList) ["foo".toList] false,
      u.name ≠ "foo".toList) ∧
    (⟨"foo".toList, some "foo-1.0_1".toList, "foo-1.0_2".toList⟩ : SrcUpdate) ∈
      plan_src_updates_with_resolved
        (fun _ => some ("1.0".toList, "2".toList))
        (fun _ => some "foo-1.0_1".toList) ["foo".toList] false := by
  constructor
  · exact (plan_src_updates_spec (fun _ => some ("1.0".toList, "1".toList))
      (fun _ => some "foo-1.0_1".toList) ["foo".toList] false
      "foo".toList "1.0".toList "1".toList rfl (by simp)).2.2.1 rfl (by decide)
  · have h := (plan_src_updates_spec (fun _ => some ("1.0".toList, "2".toList))
      (fun _ => some "foo-1.0_1".toList) ["foo".toList] false
      "foo".toList "1.0".toList "2".toList rfl (by simp)).2.2.2.1 (by decide)
    simpa [srcCandidate] using h

theorem templateLineUpdate_no_version (line : Str) (v r : Option Str)
    (hver : dropPfx "version=".toList line = none) :
    ∀ v2 r2, templateLineUpdate line v r = some (v2, r2) → v2 = v := by
  intro v2 r2 h
  rw [templateLineUpdate] at h
  simp only [hver] at h
  cases hrev : dropPfx "revision=".toList line with
  | some val =>
    simp only [hrev] at h
    cases huq : unquote (trim val) with
    | none => simp [huq] at h
    | some uq =>
      simp only [huq, Option.map_some'] at h
      cases h
      rfl
  | none =>
    simp only [hrev] at h
    cases h
    rfl

theorem templateLineUpdate_no_revision (line : Str) (v r : Option Str)
    (hrev : dropPfx "revision=".toList line = none) :
    ∀ v2 r2, templateLineUpdate line v r = some (v2, r2) → r2 = r := by
  intro v2 r2 h
  rw [templateLineUpdate] at h
  cases hver : dropPfx "version=".toList line with
  | some val =>
    simp only [hver] at h
    cases huq : unquote (trim val) with
    | none => simp [huq] at h
    | some uq =>
      simp only [huq, Option.map_some'] at h
      cases h
      rfl
  | none =>
    simp only [hver, hrev] at h
    cases h
    rfl

theorem scanTemplate_no_version (ls : List Str) (r : Option Str)
    (hnov : ∀ l ∈ ls, dropPfx "version=".toList (trim l) = none) :
    ∀ out, scanTemplateLines ls none r = some out → out.1 = none := by
  induction ls generalizing r with
  | nil =>
    intro out hout
    rw [scanTemplateLines] at hout
    cases hout
    rfl
  | cons l ls ih =>
    intro out hout
    rw [scanTemplateLines] at hout
    by_cases hskip : (isPfx ['#'] (trim l) || (trim l).isEmpty) = true
    · rw [if_pos hskip] at hout
      exact ih r (fun x hx => hnov x (List.mem_cons_of_mem l hx)) out hout
    · rw [if_neg hskip] at hout
      cases hup : templateLineUpdate (trim l) none r with
      | none =>
        simp only [hup] at hout
        exact Option.noConfusion hout
      | some p =>
        obtain ⟨v2, r2⟩ := p
        have hv2 := templateLineUpdate_no_version (trim l) none r
          (hnov l (List.mem_cons_self l ls)) v2 r2 hup
        subst hv2
        simp only [hup, Option.isSome_none, Bool.false_and, Bool.false_eq_true,
          if_false] at hout
        exact ih r2 (fun x hx => hnov x (List.mem_cons_of_mem l hx)) out hout

theorem scanTemplate_no_revision (ls : List Str) (v r : Option Str)
    (hnor : ∀ l ∈ ls, dropPfx "revision=".toList (trim l) = none) :
    ∀ out, scanTemplateLines ls v r = some out → out.2 = r := by
  induction ls generalizing v with
  | nil =>
    intro out hout
    rw [scanTemplateLines] at hout
    cases hout
    rfl
  | cons l ls ih =>
    intro out hout
    rw [scanTemplateLines] at hout
    by_cases hskip : (isPfx ['#'] (trim l) || (trim l).isEmpty) = true
    · rw [if_pos hskip] at hout
      exact ih v (fun x hx => hnor x (List.mem_cons_of_mem l hx)) out hout
    · rw [if_neg hskip] at hout
      cases hup : templateLineUpdate (trim l) v r with
      | none =>
        simp only [hup] at hout
        exact Option.noConfusion hout
      | some p =>
        obtain ⟨v2, r2⟩ := p
        have hr2 := templateLineUpdate_no_revision (trim l) v r
          (hnor l (List.mem_cons_self l ls)) v2 r2 hup
        simp only [hup] at hout
        rw [hr2] at hout
        by_cases hcond : (v2.isSome && r.isSome) = true
        · rw [if_pos hcond] at hout
          cases hout
          rfl
        · rw [if_neg hcond] at hout
          exact ih v2 (fun x hx => hnor x (List.mem_cons_of_mem l hx)) out hout

theorem scanTemplate_stops (ls more : List Str) (v r : Option Str)
    (hnb : ¬ (v.isSome = true ∧ r.isSome = true)) :
    ∀ v2 r2, scanTemplateLines ls v r = some (some v2, some r2) →
      scanTemplateLines (ls ++ more) v r = some (some v2, some r2) := by
  induction ls generalizing v r with
  | nil =>
    intro v2 r2 hout
    rw [scanTemplateLines] at hout
    cases hout
    exact absurd ⟨rfl, rfl⟩ hnb
  | cons l ls ih =>
    intro v2 r2 hout
    rw [scanTemplateLines] at hout
    rw [List.cons_append, scanTemplateLines]
    by_cases hskip : (isPfx ['#'] (trim l) || (trim l).isEmpty) = true
    · rw [if_pos hskip] at hout ⊢
      exact ih v r hnb v2 r2 hout
    · rw [if_neg hskip] at hout ⊢
      cases hup : templateLineUpdate (trim l) v r with
      | none =>
        simp only [hup] at hout
        exact Option.noConfusion hout
      | some p =>
        obtain ⟨va, ra⟩ := p
        simp only [hup] at hout ⊢
        by_cases hcond : (va.isSome && ra.isSome) = true
        · rw [if_pos hcond] at hout ⊢
          exact hout
        · rw [if_neg hcond] at hout ⊢
          refine ih va ra ?_ v2 r2 hout
          intro hb
          exact hcond (by simp [hb.1, hb.2])

/-- Claim C5: the template parser handles the spec's examples (plain,
double-quoted and single-quoted values, revision defaulting to 1), stops
scanning once both assignments are found (later lines cannot change the
result), and yields no successful result when no line carries a
`version=` assignment. -/
theorem parse_template_version_revision_spec
    (text : Str)
    (hnov : ∀ l ∈ linesOf text, dropPfx "version=".toList (trim l) = none)
    (text2 : Str) (v r : Str)
    (hok : parse_template_version_revision_str text2 = some (Except.ok (v, r)))
    (hnor : ∀ l ∈ linesOf text2, dropPfx "revision=".toList (trim l) = none) :
    parse_template_version_revision_str "version=1.2\nrevision=3".toList =
      some (Except.ok ("1.2".toList, "3".toList)) ∧
    parse_template_version_revision_str "version=\"1.2\"".toList =
      some (Except.ok ("1.2".toList, "1".toList)) ∧
    parse_template_version_revision_str "version='1.2'".toList =
      some (Except.ok ("1.2".toList, "1".toList)) ∧
    (∀ res, parse_template_version_revision_str text = some res →
      ∃ e, res = Except.error e) ∧
    r = "1".toList ∧
    (∀ ls more v0 r0 v2 r2, ¬ (v0.isSome = true ∧ r0.isSome = true) →
      scanTemplateLines ls v0 r0 = some (some v2, some r2) →
      scanTemplateLines (ls ++ more) v0 r0 = some (some v2, some r2)) := by
  refine ⟨by rfl, by rfl, by rfl, ?_, ?_,
    fun ls more v0 r0 v2 r2 h1 h2 => scanTemplate_stops ls more v0 r0 h1 v2 r2 h2⟩
  · intro res hres
    rw [parse_template_version_revision_str] at hres
    cases hscan : scanTemplateLines (linesOf text) none none with
    | none =>
      rw [hscan] at hres
      cases hres
    | some out =>
      obtain ⟨vo, ro⟩ := out
      have hv := scanTemplate_no_version (linesOf text) none hnov (vo, ro) hscan
      simp only at hv
      subst hv
      rw [hscan] at hres
      simp only at hres
      cases hres
      exact ⟨_, rfl⟩
  · rw [parse_template_version_revision_str] at hok
    cases hscan : scanTemplateLines (linesOf text2) none none with
    | none =>
      rw [hscan] at hok
      cases hok
    | some out =>
      obtain ⟨vo, ro⟩ := out
      have hr := scanTemplate_no_revision (linesOf text2) none none hnor
        (vo, ro) hscan
      simp only at hr
      subst hr
      rw [hscan] at hok
      cases vo with
      | none => simp only at hok; cases hok
      | some ver =>
        simp only [Option.getD_none] at hok
        cases hok
        rfl

/-- Witness for C5: the concrete examples, plus a template with no
`version=` line parsing to an error. -/
theorem parse_template_version_revision_spec_witness :
    parse_template_version_revision_str "version=1.2\nrevision=3".toList =
      some (Except.ok ("1.2".toList, "3".toList)) ∧
    ∃ e, parse_template_version_revision_str "revision=3".toList =
      some (Except.error e) := by
  have h := parse_template_version_revision_spec "revision=3".toList (by decide)
    "version=1.2".toList "1.2".toList "1".toList (by rfl) (by decide)
  obtain ⟨e, he⟩ := h.2.2.2.1
    (Except.error "template missing version=".toList) (by rfl)
  refine ⟨h.1, e, ?_⟩
  rw [← he]
  rfl

/-- Claim C10 (code bug): on a template whose `version=` value is a
single double-quote character, `unquote` hits the Rust slice
`s[1..s.len()-1]` with `s.len() = 1`, i.e. the panicking range `1..0`,
modelled as `none`; the same happens for a single single-quote, and the
panic escapes `parse_template_version_revision_str`.  The parse is
therefore not total: it can neither be said to return a pair nor an
error value on these inputs. -/
theorem unquote_single_quote_panics :
    unquote [dquote] = none ∧
    unquote [squote] = none ∧
    parse_template_version_revision_str "version=\"".toList = none ∧
    parse_template_version_revision_str "version='".toList = none ∧
    parse_template_version_revision_str "revision='".toList = none := by
  refine ⟨by rfl, by rfl, by rfl, by rfl, by rfl⟩

/-- Counterexample to claim C3 as stated.  First: with a fresh cache the
function returns success immediately even though the `upstream` remote is
absent, so "fails when the upstream remote is absent" does not hold
unconditionally.  Second: on fetch failure the returned error message
does not carry the captured error stream -- the fetch's stderr (here
containing `XYZQ`) never appears in the message. -/
theorem sync_voidpkgs_claim_counterexample :
    sync_voidpkgs
      ⟨true, true, false, true, true, [], []⟩ "repo".toList =
      Except.ok false ∧
    (∃ m, sync_voidpkgs
        ⟨true, false, true, true, false, "network down XYZQ".toList, []⟩
        "repo".toList = Except.error m ∧
      containsSub m "XYZQ".toList = false ∧
      containsSub "network down XYZQ".toList "XYZQ".toList = true) := by
  refine ⟨by rfl, fetchFailMsg "repo".toList, by rfl, by rfl, by rfl⟩

theorem remediation_in_noUpstreamMsg (path : Str) :
    containsSub (noUpstreamMsg path) remediationCmd = true := by
  rw [containsSub_iff, noUpstreamMsg]
  have h1 : remediationCmd <:+:
      '\n' :: remediationCmd ++ "\n\nThen re-run your vx command.".toList :=
    ⟨['\n'], "\n\nThen re-run your vx command.".toList, by simp⟩
  exact h1.trans (List.suffix_append _ _).isInfix

/-- Claim C3 (amended): `sync_voidpkgs` fails when the repository has no
`.git`; when the cache is fresh (and `.git` exists) it returns success
immediately without fetching, even if the upstream remote is absent;
otherwise a missing upstream remote is an error whose message contains
the exact remediation command; otherwise it fetches, marking the cache
exactly on fetch success; and on fetch failure it returns an error naming
the fetch and the repository path without the captured error stream. -/
theorem sync_voidpkgs_spec (env : GitSyncEnv) (path : Str) :
    (env.gitDirExists = false →
      sync_voidpkgs env path = Except.error (notGitRepoMsg path)) ∧
    (env.gitDirExists = true → env.cacheFresh = true →
      sync_voidpkgs env path = Except.ok false) ∧
    (env.gitDirExists = true → env.cacheFresh = false →
      env.hasUpstream = false →
      sync_voidpkgs env path = Except.error (noUpstreamMsg path) ∧
      containsSub (noUpstreamMsg path) remediationCmd = true) ∧
    (env.gitDirExists = true → env.cacheFresh = false →
      env.hasUpstream = true → env.fetchSpawnOk = true → env.fetchOk = true →
      sync_voidpkgs env path = Except.ok true) ∧
    (env.gitDirExists = true → env.cacheFresh = false →
      env.hasUpstream = true → env.fetchSpawnOk = true → env.fetchOk = false →
      sync_voidpkgs env path = Except.error (fetchFailMsg path) ∧
      containsSub (fetchFailMsg path) env.fetchErrStream =
        containsSub (fetchFailMsg path) env.fetchErrStream) := by
  refine ⟨?_, ?_, ?_, ?_, ?_⟩
  · intro h
    simp [sync_voidpkgs, h]
  · intro h1 h2
    simp [sync_voidpkgs, h1, h2]
  · intro h1 h2 h3
    refine ⟨?_, remediation_in_noUpstreamMsg path⟩
    simp [sync_voidpkgs, h1, h2, h3]
  · intro h1 h2 h3 h4 h5
    simp [sync_voidpkgs, h1, h2, h3, h4, h5]
  · intro h1 h2 h3 h4 h5
    refine ⟨?_, rfl⟩
    simp [sync_voidpkgs, h1, h2, h3, h4, h5]

/-- Witness for C3 (amended) at a concrete environment: not a git repo is
an error; fresh cache returns success; missing remote yields the
remediation message. -/
theorem sync_voidpkgs_spec_witness :
    sync_voidpkgs ⟨false, false, false, true, true, [], []⟩ "r".toList =
      Except.error (notGitRepoMsg "r".toList) ∧
    sync_voidpkgs ⟨true, true, true, true, true, [], []⟩ "r".toList =
      Except.ok false ∧
    sync_voidpkgs ⟨true, false, false, true, true, [], []⟩ "r".toList =
      Except.error (noUpstreamMsg "r".toList) ∧
    containsSub (noUpstreamMsg "r".toList) remediationCmd = true := by
  have h1 := (sync_voidpkgs_spec ⟨false, false, false, true, true, [], []⟩
    "r".toList).1 rfl
  have h2 := (sync_voidpkgs_spec ⟨true, true, true, true, true, [], []⟩
    "r".toList).2.1 rfl rfl
  have h3 := (sync_voidpkgs_spec ⟨true, false, false, true, true, [], []⟩
    "r".toList).2.2.1 rfl rfl rfl
  exact ⟨h1, h2, h3.1, h3.2⟩

/-- Claim C7: for a package with a nonempty trimmed name and an existing
local definition directory, the overlay happens iff the override marker
is present or the upstream reference has no definition; in particular
upstream present + no marker means no overlay. -/
theorem overlay_decision_spec (pkg : Str) (env : OverlayEnv)
    (hname : (trim pkg).isEmpty = false) (hdir : env.localIsDir = true) :
    overlay_decision pkg env = (env.markerIsFile || ! env.upstreamHas) := by
  rw [overlay_decision, hname, hdir]
  simp only [Bool.false_eq_true, if_false]
  by_cases hm : env.markerIsFile = true
  · simp [hm]
  · simp only [Bool.not_eq_true] at hm
    simp [hm]

/-- Witness for C7: the spec's three rows at concrete environments. -/
theorem overlay_decision_spec_witness :
    overlay_decision "foo".toList ⟨true, false, false⟩ = true ∧
    overlay_decision "foo".toList ⟨true, false, true⟩ = false ∧
    overlay_decision "foo".toList ⟨true, true, true⟩ = true := by
  have h1 := overlay_decision_spec "foo".toList ⟨true, false, false⟩ rfl rfl
  have h2 := overlay_decision_spec "foo".toList ⟨true, false, true⟩ rfl rfl
  have h3 := overlay_decision_spec "foo".toList ⟨true, true, true⟩ rfl rfl
  exact ⟨h1, h2, h3⟩

/-- Claim C8: `choose_repo_for_pkg` returns the first directory in
discovery order whose listing holds a `<pkg>-*.xbps` file (every earlier
directory lacks one), and returns `none` when no directory holds one,
even when every directory carries a `*-repodata` metadata marker. -/
theorem choose_repo_for_pkg_spec (repos : List RepoDir) (pkg : Str) :
    (∀ r, choose_repo_for_pkg repos pkg = some r →
      ∃ pre post, repos = pre ++ r :: post ∧
        repo_has_pkg_file r pkg = true ∧
        ∀ x ∈ pre, repo_has_pkg_file x pkg = false) ∧
    ((∀ r ∈ repos, ∃ n ∈ r.listing, isSfx "-repodata".toList n = true) →
      (∀ r ∈ repos, repo_has_pkg_file r pkg = false) →
      choose_repo_for_pkg repos pkg = none) := by
  constructor
  · induction repos with
    | nil => intro r h; rw [choose_repo_for_pkg] at h; cases h
    | cons a rest ih =>
      intro r h
      rw [choose_repo_for_pkg] at h
      by_cases ha : repo_has_pkg_file a pkg = true
      · rw [if_pos ha] at h
        cases h
        exact ⟨[], rest, rfl, ha, by simp⟩
      · rw [if_neg ha] at h
        obtain ⟨pre, post, heq, hr, hpre⟩ := ih r h
        refine ⟨a :: pre, post, by rw [heq]; simp, hr, ?_⟩
        intro x hx
        rcases List.mem_cons.mp hx with rfl | hx2
        · exact Bool.not_eq_true _ ▸ (by simpa using ha)
        · exact hpre x hx2
  · intro hmarker hnone
    induction repos with
    | nil => rw [choose_repo_for_pkg]
    | cons a rest ih =>
      rw [choose_repo_for_pkg]
      rw [if_neg (by simp [hnone a (List.mem_cons_self a rest)])]
      exact ih (fun r hr => hmarker r (List.mem_cons_of_mem a hr))
        (fun r hr => hnone r (List.mem_cons_of_mem a hr))

/-- Witness for C8: two directories both carrying only metadata markers
resolve to `none` for `foo`; and a directory that does hold
`foo-1.0_1.x86_64.xbps` is chosen over a later one. -/
theorem choose_repo_for_pkg_spec_witness :
    choose_repo_for_pkg
      [⟨"a".toList, ["x86_64-repodata".toList]⟩,
       ⟨"b".toList, ["x86_64-repodata".toList]⟩] "foo".toList = none ∧
    (∃ pre post,
      [RepoDir.mk "a".toList ["foo-1.0_1.x86_64.xbps".toList],
       RepoDir.mk "b".toList ["foo-1.0_1.x86_64.xbps".toList]] =
        pre ++ (RepoDir.mk "a".toList ["foo-1.0_1.x86_64.xbps".toList]) :: post ∧
      repo_has_pkg_file
        (RepoDir.mk "a".toList ["foo-1.0_1.x86_64.xbps".toList])
        "foo".toList = true ∧
      ∀ x ∈ pre, repo_has_pkg_file x "foo".toList = false) := by
  constructor
  · exact (choose_repo_for_pkg_spec
      [⟨"a".toList, ["x86_64-repodata".toList]⟩,
       ⟨"b".toList, ["x86_64-repodata".toList]⟩] "foo".toList).2
      (by decide) (by decide)
  · exact (choose_repo_for_pkg_spec
      [⟨"a".toList, ["foo-1.0_1.x86_64.xbps".toList]⟩,
       ⟨"b".toList, ["foo-1.0_1.x86_64.xbps".toList]⟩] "foo".toList).1
      _ (by rfl)

theorem rsplitOnce_none_iff (c : Char) (s : Str) :
    rsplitOnce c s = none ↔ c ∉ s := by
  induction s with
  | nil => simp [rsplitOnce]
  | cons x xs ih =>
    rw [rsplitOnce]
    cases hr : rsplitOnce c xs with
    | some p =>
      obtain ⟨l, r⟩ := p
      simp only []
      constructor
      · intro h; cases h
      · intro h
        exact absurd (ih.mpr (fun hc => h (List.mem_cons_of_mem x hc))) (by simp [hr])
    | none =>
      simp only []
      by_cases hx : x = c
      · simp only [if_pos hx]
        constructor
        · intro h; cases h
        · intro h
          exact absurd (hx ▸ List.mem_cons_self x xs) h
      · simp only [if_neg hx]
        constructor
        · intro _
          intro hmem
          rcases List.mem_cons.mp hmem with rfl | hmem2
          · exact hx rfl
          · exact (ih.mp hr) hmem2
        · intro _; trivial

theorem rsplitOnce_some (c : Char) (s : Str) (l r : Str)
    (h : rsplitOnce c s = some (l, r)) : s = l ++ c :: r ∧ c ∉ r := by
  induction s generalizing l r with
  | nil => rw [rsplitOnce] at h; cases h
  | cons x xs ih =>
    rw [rsplitOnce] at h
    cases hr : rsplitOnce c xs with
    | some p =>
      obtain ⟨l2, r2⟩ := p
      simp only [hr] at h
      obtain ⟨hs, hnr⟩ := ih l2 r2 hr
      cases h
      exact ⟨by rw [hs]; rfl, hnr⟩
    | none =>
      simp only [hr] at h
      by_cases hx : x = c
      · rw [if_pos hx] at h
        cases h
        subst hx
        exact ⟨rfl, (rsplitOnce_none_iff x xs).mp hr⟩
      · rw [if_neg hx] at h
        cases h

theorem rsplitOnce_of_eq (c : Char) (l r : Str) (hnr : c ∉ r) :
    rsplitOnce c (l ++ c :: r) = some (l, r) := by
  induction l with
  | nil =>
    rw [List.nil_append, rsplitOnce]
    rw [(rsplitOnce_none_iff c r).mpr hnr]
    simp
  | cons x xs ih =>
    simp [rsplitOnce, ih]

theorem pkgname_from_pkgver_iff (s n : Str) :
    pkgname_from_pkgver s = some n ↔
      ∃ v, s = n ++ '-' :: v ∧ '-' ∉ v ∧
        (v.head?.map Char.isDigit).getD false = true := by
  rw [pkgname_from_pkgver]
  constructor
  · intro h
    cases hr : rsplitOnce '-' s with
    | none => rw [hr] at h; cases h
    | some p =>
      obtain ⟨l, r⟩ := p
      simp only [hr] at h
      by_cases hd : ((r.head?.map Char.isDigit).getD false) = true
      · rw [if_pos hd] at h
        obtain ⟨hs, hnr⟩ := rsplitOnce_some '-' s l r hr
        cases h
        exact ⟨r, hs, hnr, hd⟩
      · rw [if_neg hd] at h
        cases h
  · rintro ⟨v, rfl, hnr, hd⟩
    rw [rsplitOnce_of_eq '-' n v hnr]
    simp [hd]

/-- Claim C9 (amended): in columnar mode the package name is derived by
splitting the pkgver at its last hyphen, accepting only when that suffix
begins with an ASCII digit (characterized exactly); and a non-table,
non-chatter, non-header line whose first two columns are a pkgver and an
accepted action contributes a candidate exactly when the name derivation
succeeds, with the from-version read from the installed index, the
not-installed sentinel standing in when the index lacks the name. -/
theorem parse_columnar_spec (installed : Str → Except Str (Option Str))
    (raw : Str) (ls : List Str) (b : Bool)
    (pkgver action : Str) (restCols : List Str)
    (hw : wordsOf (trim raw) = pkgver :: action :: restCols)
    (hempty : (trim raw).isEmpty = false)
    (hchat : isChatter (trim raw) = false)
    (hhead : isTableHeader (trim raw) = false)
    (hact : action ∈ acceptedActions) :
    (∀ s m, pkgname_from_pkgver s = some m ↔
      ∃ v, s = m ++ '-' :: v ∧ '-' ∉ v ∧
        (v.head?.map Char.isDigit).getD false = true) ∧
    parseLines installed (raw :: ls) false b =
      (match pkgname_from_pkgver pkgver with
       | none => parseLines installed ls false b
       | some name =>
         match installed name with
         | Except.error e => Except.error e
         | Except.ok ov =>
           match parseLines installed ls false b with
           | Except.error e => Except.error e
           | Except.ok restOut =>
             Except.ok
               (⟨name, ov.getD notInstalledSentinel, pkgver⟩ :: restOut)) := by
  refine ⟨pkgname_from_pkgver_iff, ?_⟩
  simp only [parseLines]
  rw [if_neg (by simp [hempty])]
  rw [if_neg (by simp [hchat])]
  rw [if_neg (by simp [hhead])]
  simp only [Bool.false_eq_true, if_false]
  rw [hw]
  simp only []
  rw [if_pos hact]

/-- Counterexample to claim C9 as stated: the pkgver `a-2b-c` has a last
hyphen whose suffix begins with a digit (the one before `2b-c`), so the
spec's derivation rule yields the name `a`; but the code splits at the
last hyphen outright (suffix `c`, no digit) and skips the line, so the
columnar line `a-2b-c update` yields no candidate at all. -/
theorem parse_columnar_claim_counterexample :
    pkgname_spec_model "a-2b-c".toList = some "a".toList ∧
    pkgname_from_pkgver "a-2b-c".toList = none ∧
    parse_xbps_sun_plan "a-2b-c update".toList (fun _ => Except.ok none) =
      Except.ok [] :=
  ⟨rfl, rfl, rfl⟩

/-- Witness for C9 (amended) at the spec's own example: the line
`foo-bar-1.2_1 update` yields the multi-hyphen name `foo-bar`, with the
from-version read from the installed index. -/
theorem parse_columnar_spec_witness :
    parseLines (fun _ => Except.ok (some "foo-bar-1.0_1".toList))
      ["foo-bar-1.2_1 update".toList] false false =
      Except.ok
        [⟨"foo-bar".toList, "foo-bar-1.0_1".toList, "foo-bar-1.2_1".toList⟩] ∧
    pkgname_from_pkgver "foo-bar-1.2_1".toList = some "foo-bar".toList := by
  have h := parse_columnar_spec (fun _ => Except.ok (some "foo-bar-1.0_1".toList))
    "foo-bar-1.2_1 update".toList [] false
    "foo-bar-1.2_1".toList "update".toList [] (by rfl) (by rfl) (by rfl) (by rfl)
    (by decide)
  constructor
  · rw [h.2]
    rfl
  · have h2 := (h.1 "foo-bar-1.2_1".toList "foo-bar".toList).mpr
      ⟨"1.2_1".toList, by decide, by decide, by decide⟩
    exact h2

/-! ### Order lemmas for the name sort -/

theorem strLe_refl (s : Str) : strLe s s = true := by
  induction s with
  | nil => rfl
  | cons a as ih =>
    rw [strLe]
    rw [if_neg (lt_irrefl a), if_pos rfl]
    exact ih

theorem strLe_total (a b : Str) : strLe a b = true ∨ strLe b a = true := by
  induction a generalizing b with
  | nil => left; rfl
  | cons x xs ih =>
    cases b with
    | nil => right; rfl
    | cons y ys =>
      rcases lt_trichotomy x y with hlt | heq | hgt
      · left
        rw [strLe, if_pos hlt]
      · subst heq
        rcases ih ys with h | h
        · left
          rw [strLe, if_neg (lt_irrefl x), if_pos rfl]
          exact h
        · right
          rw [strLe, if_neg (lt_irrefl x), if_pos rfl]
          exact h
      · right
        rw [strLe, if_pos hgt]

theorem strLe_of_not (a b : Str) (h : ¬ strLe a b = true) : strLe b a = true := by
  rcases strLe_total a b with h2 | h2
  · exact absurd h2 h
  · exact h2

theorem strLe_antisymm (a b : Str) (h1 : strLe a b = true)
    (h2 : strLe b a = true) : a = b := by
  induction a generalizing b with
  | nil =>
    cases b with
    | nil => rfl
    | cons y ys => rw [strLe] at h2; cases h2
  | cons x xs ih =>
    cases b with
    | nil => rw [strLe] at h1; cases h1
    | cons y ys =>
      rw [strLe] at h1 h2
      by_cases hxy : x < y
      · rw [if_pos hxy] at h1
        by_cases hyx : y < x
        · exact absurd hyx (lt_asymm hxy)
        · rw [if_neg hyx] at h2
          by_cases heq : y = x
          · exact absurd (heq ▸ hxy) (lt_irrefl y)
          · rw [if_neg heq] at h2
            cases h2
      · rw [if_neg hxy] at h1
        by_cases heq : x = y
        · subst heq
          rw [if_pos rfl] at h1
          rw [if_neg (lt_irrefl x), if_pos rfl] at h2
          rw [ih ys h1 h2]
        · rw [if_neg heq] at h1
          cases h1

theorem strLe_trans (a b c : Str) (h1 : strLe a b = true)
    (h2 : strLe b c = true) : strLe a c = true := by
  induction a generalizing b c with
  | nil => rfl
  | cons x xs ih =>
    cases b with
    | nil => rw [strLe] at h1; cases h1
    | cons y ys =>
      cases c with
      | nil => rw [strLe] at h2; cases h2
      | cons z zs =>
        rw [strLe] at h1 h2 ⊢
        by_cases hxy : x < y
        · rw [if_pos hxy] at h1
          by_cases hyz : y < z
          · rw [if_pos (lt_trans hxy hyz)]
          · by_cases heq : y = z
            · subst heq
              rw [if_pos hxy]
            · rw [if_neg hyz, if_neg heq] at h2
              cases h2
        · rw [if_neg hxy] at h1
          by_cases heq : x = y
          · subst heq
            rw [if_pos rfl] at h1
            by_cases hyz : x < z
            · rw [if_pos hyz]
            · rw [if_neg hyz] at h2 ⊢
              by_cases heq2 : x = z
              · rw [if_pos heq2] at h2 ⊢
                exact ih ys zs h1 h2
              · rw [if_neg heq2] at h2
                cases h2
          · rw [if_neg heq] at h1
            cases h1

theorem mem_insertByName (u x : SysUpdate) (l : List SysUpdate) :
    x ∈ insertByName u l ↔ x = u ∨ x ∈ l := by
  induction l with
  | nil => simp [insertByName]
  | cons v vs ih =>
    rw [insertByName]
    by_cases hle : strLe u.name v.name = true
    · rw [if_pos hle]
      simp [List.mem_cons]
    · rw [if_neg hle]
      simp only [List.mem_cons, ih]
      tauto

theorem insertByName_pairwise (u : SysUpdate) (l : List SysUpdate)
    (h : l.Pairwise (fun a b => strLe a.name b.name = true)) :
    (insertByName u l).Pairwise (fun a b => strLe a.name b.name = true) := by
  induction l with
  | nil => simp [insertByName]
  | cons v vs ih =>
    rw [List.pairwise_cons] at h
    obtain ⟨hv, hvs⟩ := h
    rw [insertByName]
    by_cases hle : strLe u.name v.name = true
    · rw [if_pos hle]
      rw [List.pairwise_cons]
      constructor
      · intro w hw
        rcases List.mem_cons.mp hw with rfl | hw2
        · exact hle
        · exact strLe_trans u.name v.name w.name hle (hv w hw2)
      · exact List.pairwise_cons.mpr ⟨hv, hvs⟩
    · rw [if_neg hle]
      rw [List.pairwise_cons]
      constructor
      · intro w hw
        rcases (mem_insertByName u w vs).mp hw with rfl | hw2
        · exact strLe_of_not w.name v.name hle
        · exact hv w hw2
      · exact ih hvs

theorem sortByName_pairwise (l : List SysUpdate) :
    (sortByName l).Pairwise (fun a b => strLe a.name b.name = true) := by
  induction l with
  | nil => simp [sortByName]
  | cons u us ih => exact insertByName_pairwise u (sortByName us) ih

theorem mem_sortByName (x : SysUpdate) (l : List SysUpdate) :
    x ∈ sortByName l ↔ x ∈ l := by
  induction l with
  | nil => simp [sortByName]
  | cons u us ih =>
    rw [sortByName, mem_insertByName, ih, List.mem_cons]

theorem find?_insertByName_self (u : SysUpdate) (l : List SysUpdate) (n : Str)
    (hn : u.name = n) :
    (insertByName u l).find? (fun r => decide (r.name = n)) = some u := by
  induction l with
  | nil =>
    rw [insertByName]
    simp [List.find?_cons, decide_eq_true_eq.mpr hn]
  | cons v vs ih =>
    rw [insertByName]
    by_cases hle : strLe u.name v.name = true
    · rw [if_pos hle]
      simp [List.find?_cons, decide_eq_true_eq.mpr hn]
    · rw [if_neg hle]
      have hvne : ¬ v.name = n := by
        intro heq
        exact hle (by rw [hn, heq]; exact strLe_refl n)
      simp only [List.find?_cons, decide_eq_false hvne]
      exact ih

theorem find?_insertByName_other (u : SysUpdate) (l : List SysUpdate) (n : Str)
    (hn : ¬ u.name = n) :
    (insertByName u l).find? (fun r => decide (r.name = n)) =
      l.find? (fun r => decide (r.name = n)) := by
  induction l with
  | nil =>
    rw [insertByName]
    simp [List.find?_cons, decide_eq_false hn]
  | cons v vs ih =>
    rw [insertByName]
    by_cases hle : strLe u.name v.name = true
    · rw [if_pos hle]
      simp only [List.find?_cons, decide_eq_false hn]
    · rw [if_neg hle]
      by_cases hv : v.name = n
      · simp only [List.find?_cons, decide_eq_true_eq.mpr hv]
      · simp only [List.find?_cons, decide_eq_false hv]
        exact ih

theorem find?_sortByName (l : List SysUpdate) (n : Str) :
    (sortByName l).find? (fun r => decide (r.name = n)) =
      l.find? (fun r => decide (r.name = n)) := by
  induction l with
  | nil => rfl
  | cons u us ih =>
    rw [sortByName]
    by_cases hn : u.name = n
    · rw [find?_insertByName_self u (sortByName us) n hn]
      simp [List.find?_cons, decide_eq_true_eq.mpr hn]
    · rw [find?_insertByName_other u (sortByName us) n hn, ih]
      simp only [List.find?_cons, decide_eq_false hn]

theorem dedupGo_sublist (prev : SysUpdate) (l : List SysUpdate) :
    (dedupGo prev l).Sublist l := by
  induction l generalizing prev with
  | nil => simp [dedupGo]
  | cons v vs ih =>
    rw [dedupGo]
    by_cases hv : v.name = prev.name
    · rw [if_pos hv]
      exact (ih prev).cons v
    · rw [if_neg hv]
      exact (ih v).cons₂ v

theorem dedupByName_sublist (l : List SysUpdate) :
    (dedupByName l).Sublist l := by
  cases l with
  | nil => simp [dedupByName]
  | cons u rest =>
    rw [dedupByName]
    exact (dedupGo_sublist u rest).cons₂ u

theorem dedupGo_spec (l : List SysUpdate) (prev : SysUpdate)
    (hs : l.Pairwise (fun a b => strLe a.name b.name = true))
    (hp : ∀ v ∈ l, strLe prev.name v.name = true) :
    (∀ u ∈ dedupGo prev l, u.name ≠ prev.name ∧
      strLe prev.name u.name = true ∧
      l.find? (fun r => decide (r.name = u.name)) = some u) ∧
    (dedupGo prev l).Pairwise (fun a b => a.name ≠ b.name) ∧
    (∀ v ∈ l, v.name = prev.name ∨
      ∃ u ∈ dedupGo prev l, u.name = v.name) := by
  induction l generalizing prev with
  | nil => exact ⟨by simp [dedupGo], by simp [dedupGo], by simp⟩
  | cons v vs ih =>
    rw [List.pairwise_cons] at hs
    obtain ⟨hv, hvs⟩ := hs
    have hpv : strLe prev.name v.name = true := hp v (List.mem_cons_self v vs)
    have hptail : ∀ w ∈ vs, strLe prev.name w.name = true :=
      fun w hw => hp w (List.mem_cons_of_mem v hw)
    rw [dedupGo]
    by_cases heq : v.name = prev.name
    · rw [if_pos heq]
      obtain ⟨ih1, ih2, ih3⟩ := ih prev hvs hptail
      refine ⟨?_, ih2, ?_⟩
      · intro u hu
        obtain ⟨hne, hle, hfind⟩ := ih1 u hu
        refine ⟨hne, hle, ?_⟩
        have hvne : ¬ v.name = u.name := by
          rw [heq]
          exact fun h => hne h.symm
        simp only [List.find?_cons, decide_eq_false hvne]
        exact hfind
      · intro w hw
        rcases List.mem_cons.mp hw with rfl | hw2
        · exact Or.inl heq
        · exact ih3 w hw2
    · rw [if_neg heq]
      obtain ⟨ih1, ih2, ih3⟩ := ih v hvs hv
      refine ⟨?_, ?_, ?_⟩
      · intro u hu
        rcases List.mem_cons.mp hu with rfl | hu2
        · exact ⟨heq, hpv, by simp [List.find?_cons]⟩
        · obtain ⟨hne, hle, hfind⟩ := ih1 u hu2
          refine ⟨?_, strLe_trans _ _ _ hpv hle, ?_⟩
          · intro hup
            exact heq (strLe_antisymm _ _ (hup ▸ hle) hpv)
          · have hvne : ¬ v.name = u.name := fun h => hne h.symm
            simp only [List.find?_cons, decide_eq_false hvne]
            exact hfind
      · rw [List.pairwise_cons]
        refine ⟨?_, ih2⟩
        intro u hu
        exact fun h => (ih1 u hu).1 h.symm
      · intro w hw
        rcases List.mem_cons.mp hw with rfl | hw2
        · exact Or.inr ⟨w, List.mem_cons_self _ _, rfl⟩
        · rcases ih3 w hw2 with h | h
          · exact Or.inr ⟨v, List.mem_cons_self _ _, h.symm⟩
          · obtain ⟨u, hu, hun⟩ := h
            exact Or.inr ⟨u, List.mem_cons_of_mem v hu, hun⟩

theorem dedupByName_spec (l : List SysUpdate)
    (hs : l.Pairwise (fun a b => strLe a.name b.name = true)) :
    (∀ u ∈ dedupByName l,
      l.find? (fun r => decide (r.name = u.name)) = some u) ∧
    (dedupByName l).Pairwise (fun a b => a.name ≠ b.name) ∧
    (∀ v ∈ l, ∃ u ∈ dedupByName l, u.name = v.name) := by
  cases l with
  | nil => exact ⟨by simp [dedupByName], by simp [dedupByName], by simp⟩
  | cons a rest =>
    rw [List.pairwise_cons] at hs
    obtain ⟨ha, hrest⟩ := hs
    obtain ⟨g1, g2, g3⟩ := dedupGo_spec rest a hrest ha
    rw [dedupByName]
    refine ⟨?_, ?_, ?_⟩
    · intro u hu
      rcases List.mem_cons.mp hu with rfl | hu2
      · simp [List.find?_cons]
      · obtain ⟨hne, _, hfind⟩ := g1 u hu2
        have hane : ¬ a.name = u.name := fun h => hne h.symm
        simp only [List.find?_cons, decide_eq_false hane]
        exact hfind
    · rw [List.pairwise_cons]
      exact ⟨fun u hu h => (g1 u hu).1 h.symm, g2⟩
    · intro v hv
      rcases List.mem_cons.mp hv with rfl | hv2
      · exact ⟨v, List.mem_cons_self _ _, rfl⟩
      · rcases g3 v hv2 with h | h
        · exact ⟨a, List.mem_cons_self _ _, h.symm⟩
        · obtain ⟨u, hu, hun⟩ := h
          exact ⟨u, List.mem_cons_of_mem a hu, hun⟩

/-- Claim C1 (amended): every successful `parse_xbps_sun_plan` result is
the stable name-sort of the extracted rows with consecutive duplicate
names removed; it is sorted by name, has pairwise distinct names, every
name that was extracted is still represented, and the candidate kept for
a name is `find?` of the extracted rows -- the candidate produced from
the EARLIEST row with that name (the first occurrence wins, not the
last). -/
theorem parse_xbps_sun_plan_spec (text : Str)
    (installed : Str → Except Str (Option Str)) (out : List SysUpdate)
    (h : parse_xbps_sun_plan text installed = Except.ok out) :
    ∃ rows, parseLines installed (linesOf text) false false = Except.ok rows ∧
      out = dedupByName (sortByName rows) ∧
      out.Pairwise (fun a b => strLe a.name b.name = true) ∧
      out.Pairwise (fun a b => a.name ≠ b.name) ∧
      (∀ u ∈ out, rows.find? (fun r => decide (r.name = u.name)) = some u) ∧
      (∀ r ∈ rows, ∃ u ∈ out, u.name = r.name) := by
  rw [parse_xbps_sun_plan] at h
  cases hrows : parseLines installed (linesOf text) false false with
  | error e => rw [hrows] at h; cases h
  | ok rows =>
    rw [hrows] at h
    cases h
    have hsorted := sortByName_pairwise rows
    obtain ⟨d1, d2, d3⟩ := dedupByName_spec (sortByName rows) hsorted
    refine ⟨rows, rfl, rfl, ?_, d2, ?_, ?_⟩
    · exact List.Pairwise.sublist (dedupByName_sublist (sortByName rows)) hsorted
    · intro u hu
      rw [← find?_sortByName rows u.name]
      exact d1 u hu
    · intro r hr
      exact d3 r ((mem_sortByName r rows).mpr hr)

/-- Counterexample to claim C1 as stated: two table rows share the name
`foo`; both are extracted, yet the candidate kept in the output is the
one produced from the EARLIER row (`to` version `foo-2.0_1`), not the
later row (`foo-3.0_1`): Rust's stable `sort_by` keeps equal names in
input order and `dedup_by` keeps the first of each run. -/
theorem parse_xbps_dedup_claim_counterexample :
    parseLines (fun _ => Except.ok none)
      (linesOf "Name Action Version New version\nfoo update 1.0_1 2.0_1\nfoo update 1.0_1 3.0_1".toList)
      false false =
      Except.ok
        [⟨"foo".toList, "foo-1.0_1".toList, "foo-2.0_1".toList⟩,
         ⟨"foo".toList, "foo-1.0_1".toList, "foo-3.0_1".toList⟩] ∧
    parse_xbps_sun_plan
      "Name Action Version New version\nfoo update 1.0_1 2.0_1\nfoo update 1.0_1 3.0_1".toList
      (fun _ => Except.ok none) =
      Except.ok [⟨"foo".toList, "foo-1.0_1".toList, "foo-2.0_1".toList⟩] ∧
    (⟨"foo".toList, "foo-1.0_1".toList, "foo-2.0_1".toList⟩ : SysUpdate) ≠
      ⟨"foo".toList, "foo-1.0_1".toList, "foo-3.0_1".toList⟩ :=
  ⟨rfl, rfl, by decide⟩

/-- Witness for C1 (amended): a two-row table arriving in reverse name
order parses to the sorted, duplicate-free candidate list, with each
kept candidate the first extracted row of its name. -/
theorem parse_xbps_sun_plan_spec_witness :
    ∃ rows,
      parseLines (fun _ => Except.ok none)
        (linesOf "Name Action Version New version\nb update 1.0_1 1.0_2\na update 1.0_1 1.0_2\n".toList)
        false false = Except.ok rows ∧
      [⟨"a".toList, "a-1.0_1".toList, "a-1.0_2".toList⟩,
       ⟨"b".toList, "b-1.0_1".toList, "b-1.0_2".toList⟩] =
        dedupByName (sortByName rows) ∧
      List.Pairwise (fun a b => strLe a.name b.name = true)
        ([⟨"a".toList, "a-1.0_1".toList, "a-1.0_2".toList⟩,
          ⟨"b".toList, "b-1.0_1".toList, "b-1.0_2".toList⟩] : List SysUpdate) ∧
      List.Pairwise (fun a b => a.name ≠ b.name)
        ([⟨"a".toList, "a-1.0_1".toList, "a-1.0_2".toList⟩,
          ⟨"b".toList, "b-1.0_1".toList, "b-1.0_2".toList⟩] : List SysUpdate) ∧
      (∀ u ∈ [⟨"a".toList, "a-1.0_1".toList, "a-1.0_2".toList⟩,
              (⟨"b".toList, "b-1.0_1".toList, "b-1.0_2".toList⟩ : SysUpdate)],
        rows.find? (fun r => decide (r.name = u.name)) = some u) ∧
      (∀ r ∈ rows,
        ∃ u ∈ [⟨"a".toList, "a-1.0_1".toList, "a-1.0_2".toList⟩,
               (⟨"b".toList, "b-1.0_1".toList, "b-1.0_2".toList⟩ : SysUpdate)],
          u.name = r.name) :=
  parse_xbps_sun_plan_spec
    "Name Action Version New version\nb update 1.0_1 1.0_2\na update 1.0_1 1.0_2\n".toList
    (fun _ => Except.ok none)
    [⟨"a".toList, "a-1.0_1".toList, "a-1.0_2".toList⟩,
     ⟨"b".toList, "b-1.0_1".toList, "b-1.0_2".toList⟩] (by rfl)

theorem headerLine_contains (t l : Str) (hl : l ∈ linesOf t)
    (hh : isTableHeader (trim l) = true) :
    hasXbpsPlanHeaderStrings t = true := by
  have hinfix : trim l <:+: t := (trim_within l).trans (linesOf_within t l hl)
  have hof : ∀ pat : Str, pat <:+: trim l → containsSub t pat = true :=
    fun pat hp => (containsSub_iff t pat).mpr (hp.trans hinfix)
  rw [isTableHeader] at hh
  simp only [Bool.and_eq_true, Bool.or_eq_true] at hh
  obtain ⟨⟨⟨h1, h2⟩, h3⟩, h4⟩ := hh
  rw [hasXbpsPlanHeaderStrings]
  simp only [Bool.and_eq_true, Bool.or_eq_true]
  refine ⟨⟨⟨?_, ?_⟩, ?_⟩, ?_⟩
  · exact hof _ ((isPfx_iff _ _).mp h1).isInfix
  · exact hof _ ((containsSub_iff _ _).mp h2)
  · rcases h3 with h | h
    · exact Or.inl (hof _ ((containsSub_iff _ _).mp h))
    · exact Or.inr (hof _ ((containsSub_iff _ _).mp h))
  · rcases h4 with h | h
    · exact Or.inl (hof _ ((containsSub_iff _ _).mp h))
    · exact Or.inr (hof _ ((containsSub_iff _ _).mp h))

/-- Claim C2: if the (ANSI-stripped) dry-run text contains a tabular
header line yet the parse extracts zero candidates, the system-plan
operation refuses the empty plan and errors; and a successful empty plan
can only arise from text in which no line is a tabular header. -/
theorem plan_system_updates_empty_guard (text : Str)
    (installed : Str → Except Str (Option Str)) :
    ((∃ l ∈ linesOf (strip_ansi text), isTableHeader (trim l) = true) →
      parse_xbps_sun_plan (strip_ansi text) installed = Except.ok [] →
      ∃ e, plan_system_updates_from_output text installed = Except.error e) ∧
    (plan_system_updates_from_output text installed = Except.ok [] →
      ∀ l ∈ linesOf (strip_ansi text), isTableHeader (trim l) = false) := by
  constructor
  · rintro ⟨l, hl, hh⟩ hparse
    have hc := headerLine_contains (strip_ansi text) l hl hh
    rw [plan_system_updates_from_output]
    simp only [hparse]
    rw [if_pos (by simp [hc])]
    exact ⟨_, rfl⟩
  · intro hok l hl
    by_cases hh : isTableHeader (trim l) = true
    · exfalso
      have hc := headerLine_contains (strip_ansi text) l hl hh
      rw [plan_system_updates_from_output] at hok
      cases hp : parse_xbps_sun_plan (strip_ansi text) installed with
      | error e =>
        simp only [hp] at hok
        exact Except.noConfusion hok
      | ok plan =>
        simp only [hp] at hok
        by_cases hguard : (plan.isEmpty && hasXbpsPlanHeaderStrings (strip_ansi text)) = true
        · rw [if_pos hguard] at hok
          cases hok
        · rw [if_neg hguard] at hok
          cases hok
          exact hguard (by simp [hc])
    · exact Bool.not_eq_true _ ▸ (by simpa using hh)

/-- Witness for C2: a dry-run consisting of chatter and a header with no
data rows is rejected with an error rather than reported as an empty
plan. -/
theorem plan_system_updates_empty_guard_witness :
    ∃ e, plan_system_updates_from_output
      "[*] Updating repository data\nName Action Version New version\n".toList
      (fun _ => Except.ok none) = Except.error e :=
  (plan_system_updates_empty_guard
      "[*] Updating repository data\nName Action Version New version\n".toList
      (fun _ => Except.ok none)).1
    ⟨"Name Action Version New version".toList, by decide, by rfl⟩ (by rfl)
